import Mathlib

/-!
Verification of the resume-text reconstruction logic of the job-scout-agent
repository (web route `POST /api/parse/resume`).

Strings are modelled as `List Char`.  The function `reconstructResumeText`
below is a direct shallow embedding of the TypeScript function of the same
name: Unicode NFKC normalization, soft-hyphen unwrapping, carriage-return
removal, line splitting with per-line trailing-whitespace removal, the
bullet / hard-break / sentence-end line classification loop, and the final
join / tidy / trim stage.
-/

/-- The set of characters matched by the JavaScript regex class `\s`
(also the set removed by `String.prototype.trim`). -/
def isJsSpace (c : Char) : Bool :=
  decide (c = '\t' ∨ c = '\n' ∨ c = '\u000B' ∨ c = '\u000C' ∨ c = '\r' ∨ c = ' ' ∨
    c = ' ' ∨ c = ' ' ∨ (' ' ≤ c ∧ c ≤ ' ') ∨ c = ' ' ∨
    c = ' ' ∨ c = ' ' ∨ c = ' ' ∨ c = '　' ∨ c = '﻿')

/-- Characters matched by the regex class `[ \t]`. -/
def isSpaceTab (c : Char) : Bool :=
  decide (c = ' ' ∨ c = '\t')

/-- The double-quote character (U+0022). -/
def quoteChar : Char := Char.ofNat 34

/-- The apostrophe character (U+0027). -/
def aposChar : Char := Char.ofNat 39

/-- Bullet marker characters of the `bullets` and `hardBreakAfter` regexes:
`-`, `*`, `•`, `‣`, `▪`, `◦`. -/
def isBulletMark (c : Char) : Bool :=
  decide (c = '-' ∨ c = '*' ∨ c = '•' ∨ c = '‣' ∨ c = '▪' ∨ c = '◦')

/-- `String.prototype.normalize("NFKC")`.  Modelled as the identity map:
every character occurring in the concrete inputs of the claims and in the
regexes of `reconstructResumeText` is NFKC-invariant, and all universally
quantified results below hold for every list of characters reaching the
stages after normalization. -/
def normalizeNFKC (s : List Char) : List Char := s

/-- Global replacement of the regex `([A-Za-z])-\n(?=[A-Za-z])` by `$1`:
a hyphen-newline pair standing between two ASCII letters is deleted
(soft-hyphen line-break unwrapping).  The lookahead does not consume the
second letter, so scanning resumes at it. -/
def dehyphenate : List Char → List Char
  | a :: '-' :: '\n' :: b :: rest =>
    if a.isAlpha && b.isAlpha then a :: dehyphenate (b :: rest)
    else a :: dehyphenate ('-' :: '\n' :: b :: rest)
  | c :: rest => c :: dehyphenate rest
  | [] => []

/-- Global replacement of the regex `\r` by the empty string. -/
def removeCR (l : List Char) : List Char := l.filter (fun c => decide (c ≠ '\r'))

/-- `String.prototype.split("\n")`: JavaScript split semantics, so the
result is never empty and `splitNL [] = [[]]`. -/
def splitNL : List Char → List (List Char)
  | [] => [[]]
  | c :: rest =>
    let ps := splitNL rest
    if c = '\n' then [] :: ps
    else (c :: ps.headD []) :: ps.tail

/-- `Array.prototype.join("\n")` for a list of newline-free pieces. -/
def joinNL : List (List Char) → List Char
  | [] => []
  | [l] => l
  | l :: m :: rest => l ++ '\n' :: joinNL (m :: rest)

/-- Per-line `replace(/\s+$/g, "")`: remove trailing JS whitespace. -/
def rstrip (l : List Char) : List Char :=
  (l.reverse.dropWhile isJsSpace).reverse

/-- `String.prototype.trim()`: remove leading and trailing JS whitespace. -/
def jsTrim (l : List Char) : List Char :=
  ((l.dropWhile isJsSpace).reverse.dropWhile isJsSpace).reverse

/-- Test of the regex `/^(\s*[-*•‣▪◦]|(\s*\d+[\.)]))\s+/` (`bullets`):
optional leading whitespace, then either a bullet marker or a digit run
followed by `.` or `)`, then at least one whitespace character. -/
def bulletsTest (l : List Char) : Bool :=
  match l.dropWhile isJsSpace with
  | [] => false
  | c :: rest =>
    if isBulletMark c then
      match rest with
      | x :: _ => isJsSpace x
      | [] => false
    else if c.isDigit then
      match rest.dropWhile Char.isDigit with
      | p :: x :: _ => (decide (p = '.') || decide (p = ')')) && isJsSpace x
      | _ => false
    else false

/-- Test of the regex `/[:;]\s*$|^\s*[-*•‣▪◦]|\)\s*$/` (`hardBreakAfter`):
the last character before trailing whitespace is `:`, `;` or `)`, or the
first character after leading whitespace is a bullet marker. -/
def hardBreakAfterTest (l : List Char) : Bool :=
  (match l.reverse.dropWhile isJsSpace with
   | c :: _ => decide (c = ':') || decide (c = ';') || decide (c = ')')
   | [] => false) ||
  (match l.dropWhile isJsSpace with
   | c :: _ => isBulletMark c
   | [] => false)

/-- Test of the regex `/[.!?]["')\]]?\s*$/` (`sentenceEnd`): ignoring
trailing whitespace, the line ends in `.`, `!` or `?`, optionally followed
by one closing quote or bracket character. -/
def sentenceEndTest (l : List Char) : Bool :=
  match l.reverse.dropWhile isJsSpace with
  | [] => false
  | c :: rest =>
    (decide (c = '.') || decide (c = '!') || decide (c = '?')) ||
    ((decide (c = quoteChar) || decide (c = aposChar) || decide (c = ')') ||
      decide (c = ']')) &&
     (match rest with
      | d :: _ => decide (d = '.') || decide (d = '!') || decide (d = '?')
      | [] => false))

/-- The `joinSoftly` condition of the loop body: the current line is
non-empty, does not match `sentenceEnd` nor `hardBreakAfter`, and the next
line is non-empty and is not a bullet line. -/
def joinSoftly (cur next : List Char) : Bool :=
  !cur.isEmpty && !sentenceEndTest cur && !hardBreakAfterTest cur &&
  !next.isEmpty && !bulletsTest next

/-- The `flush` closure: trim the buffer and emit it when non-empty. -/
def flushBuf (buf : List Char) : List (List Char) :=
  let s := jsTrim buf
  if s.isEmpty then [] else [s]

/-- The main loop of `reconstructResumeText` over the split lines, with the
paragraph buffer `buf` threaded through; the pushed output lines are
produced in order. -/
def processLines : List (List Char) → List Char → List (List Char)
  | [], buf => flushBuf buf
  | l :: rest, buf =>
    let cur := jsTrim l
    let next := jsTrim (rest.headD [])
    if cur.isEmpty then flushBuf buf ++ processLines rest []
    else if bulletsTest cur then flushBuf buf ++ [cur] ++ processLines rest []
    else
      let newBuf := if buf.isEmpty then cur else buf ++ ' ' :: cur
      if joinSoftly cur next then processLines rest newBuf
      else flushBuf newBuf ++ processLines rest []

/-- Global replacement of the regex `[ \t]+\n` by `\n`: delete every run of
spaces and tabs standing immediately before a newline. -/
def removeSpacesBeforeNL : List Char → List Char
  | [] => []
  | c :: rest =>
    let r := removeSpacesBeforeNL rest
    if isSpaceTab c then
      match r with
      | '\n' :: _ => r
      | _ => c :: r
    else c :: r

/-- Global replacement of the regex `\n{3,}` by `\n\n`: every maximal run
of three or more newlines collapses to exactly two. -/
def collapseNewlines : List Char → List Char
  | [] => []
  | a :: t =>
    if a = '\n' ∧ t.take 2 = ['\n', '\n'] then collapseNewlines t
    else a :: collapseNewlines t

/-- The `lines` array of the source: normalize, unwrap soft hyphens, remove
carriage returns, split on newlines and strip trailing whitespace of each
line. -/
def linesOf (input : List Char) : List (List Char) :=
  (splitNL (removeCR (dehyphenate (normalizeNFKC input)))).map rstrip

/-- The `out` array of the source after the loop and the final flush. -/
def outOf (input : List Char) : List (List Char) :=
  processLines (linesOf input) []

/-- Shallow embedding of `reconstructResumeText`: heuristic cleanup undoing
OCR/PDF one-word-per-line text while keeping bullets and headings. -/
def reconstructResumeText (input : List Char) : List Char :=
  jsTrim (collapseNewlines (removeSpacesBeforeNL (joinNL (outOf input))))

/-- Response body of the resume-parse route on its 200 paths: the cleaned
text together with its character count, exactly as built by both success
branches of the `POST` handler (`{ text: clean, chars: clean.length }`). -/
structure ParseOkResponse where
  text : List Char
  chars : Nat

/-- Construction of a 200 response of the `POST` handler from the extracted
raw text (upstream-proxy branch and local text branch are identical). -/
def parseResumeOk (extracted : List Char) : ParseOkResponse :=
  let clean := reconstructResumeText extracted
  { text := clean, chars := clean.length }

/-! Helper lemmas about `dropWhile`, `jsTrim` and `rstrip`. -/

theorem dropWhile_eq_self_of_head {p : Char → Bool} {l : List Char}
    (h : ∀ c ∈ l.head?, p c = false) : l.dropWhile p = l := by
  cases l with
  | nil => rfl
  | cons a t =>
    have ha : p a = false := h a (by simp)
    simp [List.dropWhile_cons, ha]

theorem head?_dropWhile (p : Char → Bool) (l : List Char) :
    ∀ c ∈ (l.dropWhile p).head?, p c = false := by
  induction l with
  | nil => intro c hc; simp at hc
  | cons a t ih =>
    intro c hc
    by_cases ha : p a = true
    · rw [List.dropWhile_cons_of_pos ha] at hc
      exact ih c hc
    · rw [List.dropWhile_cons_of_neg ha] at hc
      simp at hc
      subst hc
      exact Bool.eq_false_iff.mpr ha

theorem getLast?_dropWhile (p : Char → Bool) (l : List Char)
    (h : l.dropWhile p ≠ []) : (l.dropWhile p).getLast? = l.getLast? := by
  induction l with
  | nil => rfl
  | cons a t ih =>
    by_cases ha : p a = true
    · rw [List.dropWhile_cons_of_pos ha] at h ⊢
      cases t with
      | nil => exact absurd rfl h
      | cons b t' => rw [ih h, List.getLast?_cons_cons]
    · rw [List.dropWhile_cons_of_neg ha]

theorem mem_of_mem_dropWhile {p : Char → Bool} {l : List Char} {c : Char}
    (h : c ∈ l.dropWhile p) : c ∈ l :=
  (List.dropWhile_sublist p).mem h

theorem getLast?_append_right {l t : List Char} (h : t ≠ []) :
    (l ++ t).getLast? = t.getLast? := by
  rw [List.getLast?_append]
  cases ht : t.getLast? with
  | none => exact absurd (List.getLast?_eq_none_iff.mp ht) h
  | some x => rfl

theorem head?_append_left {l t : List Char} (h : l ≠ []) :
    (l ++ t).head? = l.head? := by
  cases l with
  | nil => exact absurd rfl h
  | cons a l' => rfl

theorem jsTrim_getLast? (l : List Char) :
    ∀ c ∈ (jsTrim l).getLast?, isJsSpace c = false := by
  intro c hc
  unfold jsTrim at hc
  rw [List.getLast?_reverse] at hc
  exact head?_dropWhile isJsSpace _ c hc

theorem jsTrim_head? (l : List Char) :
    ∀ c ∈ (jsTrim l).head?, isJsSpace c = false := by
  intro c hc
  unfold jsTrim at hc
  rw [List.head?_reverse] at hc
  by_cases hz : (l.dropWhile isJsSpace).reverse.dropWhile isJsSpace = []
  · rw [hz] at hc; simp at hc
  · rw [getLast?_dropWhile isJsSpace _ hz, List.getLast?_reverse] at hc
    exact head?_dropWhile isJsSpace l c hc

theorem jsTrim_eq_self {l : List Char}
    (h1 : ∀ c ∈ l.head?, isJsSpace c = false)
    (h2 : ∀ c ∈ l.getLast?, isJsSpace c = false) : jsTrim l = l := by
  unfold jsTrim
  rw [dropWhile_eq_self_of_head h1]
  rw [dropWhile_eq_self_of_head (by rw [List.head?_reverse]; exact h2)]
  exact List.reverse_reverse l

theorem jsTrim_idem (l : List Char) : jsTrim (jsTrim l) = jsTrim l :=
  jsTrim_eq_self (jsTrim_head? l) (jsTrim_getLast? l)

theorem mem_of_mem_jsTrim {l : List Char} {c : Char} (h : c ∈ jsTrim l) : c ∈ l := by
  unfold jsTrim at h
  rw [List.mem_reverse] at h
  have := mem_of_mem_dropWhile h
  rw [List.mem_reverse] at this
  exact mem_of_mem_dropWhile this

theorem rstrip_eq_self {l : List Char}
    (h2 : ∀ c ∈ l.getLast?, isJsSpace c = false) : rstrip l = l := by
  unfold rstrip
  rw [dropWhile_eq_self_of_head (by rw [List.head?_reverse]; exact h2)]
  exact List.reverse_reverse l

theorem mem_of_mem_rstrip {l : List Char} {c : Char} (h : c ∈ rstrip l) : c ∈ l := by
  unfold rstrip at h
  rw [List.mem_reverse] at h
  have := mem_of_mem_dropWhile h
  rwa [List.mem_reverse] at this

/-! Helper lemmas about `splitNL` and `joinNL`. -/

theorem splitNL_ne_nil (l : List Char) : splitNL l ≠ [] := by
  cases l with
  | nil => simp [splitNL]
  | cons c rest =>
    simp only [splitNL]
    by_cases hc : c = '\n' <;> simp [hc]

theorem not_mem_of_mem_splitNL :
    ∀ (l : List Char), ∀ p ∈ splitNL l, '\n' ∉ p := by
  intro l
  induction l with
  | nil => intro p hp; simp [splitNL] at hp; subst hp; simp
  | cons c rest ih =>
    intro p hp
    simp only [splitNL] at hp
    by_cases hc : c = '\n'
    · simp [hc] at hp
      rcases hp with hp | hp
      · subst hp; simp
      · exact ih p hp
    · simp [hc] at hp
      rcases hp with hp | hp
      · subst hp
        intro hmem
        rcases List.mem_cons.mp hmem with h | h
        · exact hc h.symm
        · cases hsp : splitNL rest with
          | nil => exact absurd hsp (splitNL_ne_nil rest)
          | cons q qs =>
            rw [hsp] at h
            simp at h
            exact ih q (by rw [hsp]; simp) h
      · exact ih p (List.mem_of_mem_tail hp)

theorem splitNL_of_no_nl {l : List Char} (h : '\n' ∉ l) : splitNL l = [l] := by
  induction l with
  | nil => rfl
  | cons c rest ih =>
    have hc : c ≠ '\n' := fun hh => h (hh ▸ List.mem_cons_self c rest)
    have hr : '\n' ∉ rest := fun hh => h (List.mem_cons_of_mem c hh)
    simp [splitNL, hc, ih hr]

theorem splitNL_append_nl {l t : List Char} (h : '\n' ∉ l) :
    splitNL (l ++ '\n' :: t) = l :: splitNL t := by
  induction l with
  | nil => simp [splitNL]
  | cons c l' ih =>
    have hc : c ≠ '\n' := fun hh => h (hh ▸ List.mem_cons_self c l')
    have hl' : '\n' ∉ l' := fun hh => h (List.mem_cons_of_mem c hh)
    simp only [List.cons_append, splitNL, List.append_eq]
    rw [ih hl']
    simp [hc]

theorem splitNL_joinNL :
    ∀ (out : List (List Char)), (∀ p ∈ out, '\n' ∉ p) → out ≠ [] →
    splitNL (joinNL out) = out := by
  intro out
  induction out with
  | nil => intro _ h; exact absurd rfl h
  | cons l rest ih =>
    intro h _
    cases rest with
    | nil => exact splitNL_of_no_nl (h l (by simp))
    | cons m rest' =>
      show splitNL (l ++ '\n' :: joinNL (m :: rest')) = l :: m :: rest'
      rw [splitNL_append_nl (h l (by simp))]
      rw [ih (fun p hp => h p (List.mem_cons_of_mem l hp)) (by simp)]

theorem joinNL_ne_nil {m : List Char} {rest : List (List Char)} (hm : m ≠ []) :
    joinNL (m :: rest) ≠ [] := by
  cases rest with
  | nil => exact hm
  | cons r rest' =>
    show m ++ '\n' :: joinNL (r :: rest') ≠ []
    simp

theorem joinNL_head? {m : List Char} {rest : List (List Char)} (hm : m ≠ []) :
    (joinNL (m :: rest)).head? = m.head? := by
  cases rest with
  | nil => rfl
  | cons r rest' =>
    show (m ++ '\n' :: joinNL (r :: rest')).head? = m.head?
    exact head?_append_left hm

theorem joinNL_getLast? :
    ∀ (out : List (List Char)), (∀ p ∈ out, p ≠ []) →
    ∀ c ∈ (joinNL out).getLast?, ∃ p ∈ out, p.getLast? = some c := by
  intro out
  induction out with
  | nil => intro _ c hc; simp [joinNL] at hc
  | cons l rest ih =>
    intro h c hc
    cases rest with
    | nil => exact ⟨l, by simp, hc⟩
    | cons m rest' =>
      have hJ : joinNL (m :: rest') ≠ [] := joinNL_ne_nil (h m (by simp))
      rw [show joinNL (l :: m :: rest') = l ++ '\n' :: joinNL (m :: rest') from rfl] at hc
      rw [getLast?_append_right (by simp)] at hc
      have : ('\n' :: joinNL (m :: rest')).getLast? = (joinNL (m :: rest')).getLast? := by
        cases hJc : joinNL (m :: rest') with
        | nil => exact absurd hJc hJ
        | cons x xs => rw [List.getLast?_cons_cons]
      rw [this] at hc
      obtain ⟨p, hp, hpc⟩ := ih (fun p hp => h p (List.mem_cons_of_mem l hp)) c hc
      exact ⟨p, List.mem_cons_of_mem l hp, hpc⟩

theorem mem_joinNL {out : List (List Char)} {c : Char} (h : c ∈ joinNL out) :
    c = '\n' ∨ ∃ p ∈ out, c ∈ p := by
  induction out with
  | nil => simp [joinNL] at h
  | cons l rest ih =>
    cases rest with
    | nil => exact Or.inr ⟨l, by simp, h⟩
    | cons m rest' =>
      rw [show joinNL (l :: m :: rest') = l ++ '\n' :: joinNL (m :: rest') from rfl] at h
      rcases List.mem_append.mp h with h | h
      · exact Or.inr ⟨l, by simp, h⟩
      · rcases List.mem_cons.mp h with h | h
        · exact Or.inl h
        · rcases ih h with h | ⟨p, hp, hc⟩
          · exact Or.inl h
          · exact Or.inr ⟨p, List.mem_cons_of_mem l hp, hc⟩

/-! Adjacent-pair predicates used to show that the final two regex
replacements are the identity on the joined output. -/

/-- Absence of a given adjacent character pair in a list. -/
def noPair (bad : Char → Char → Bool) : List Char → Bool
  | a :: b :: rest => !bad a b && noPair bad (b :: rest)
  | _ => true

/-- The pair deleted by the regex `[ \t]+\n`: a space or tab directly
before a newline. -/
def badPair1 (a b : Char) : Bool := isSpaceTab a && decide (b = '\n')

/-- The pair characterizing a blank output line: two adjacent newlines. -/
def badPair2 (a b : Char) : Bool := decide (a = '\n') && decide (b = '\n')

/-- A string with no two adjacent newline characters, hence no blank line
between two newline-separated pieces. -/
def noDoubleNL (l : List Char) : Bool := noPair badPair2 l

/-- A string with no run of three or more consecutive newline characters. -/
def noTripleNL : List Char → Bool
  | a :: b :: c :: rest =>
    !(decide (a = '\n') && decide (b = '\n') && decide (c = '\n')) &&
    noTripleNL (b :: c :: rest)
  | _ => true

theorem noPair_tail {bad : Char → Char → Bool} {a : Char} {t : List Char}
    (h : noPair bad (a :: t) = true) : noPair bad t = true := by
  cases t with
  | nil => rfl
  | cons b t' =>
    have := (Bool.and_eq_true _ _).mp h
    exact this.2

theorem noPair_cons {bad : Char → Char → Bool} {a : Char} {t : List Char}
    (h1 : ∀ b ∈ t.head?, bad a b = false) (h2 : noPair bad t = true) :
    noPair bad (a :: t) = true := by
  cases t with
  | nil => rfl
  | cons b t' =>
    have hb : bad a b = false := h1 b (by simp)
    simp only [noPair, hb, Bool.not_false, Bool.true_and]
    exact h2

theorem noPair_of_nl {bad : Char → Char → Bool} {l : List Char}
    (hb : ∀ a b, bad a b = true → a = '\n' ∨ b = '\n')
    (h : '\n' ∉ l) : noPair bad l = true := by
  induction l with
  | nil => rfl
  | cons a t ih =>
    have ha : a ≠ '\n' := fun hh => h (hh ▸ List.mem_cons_self a t)
    have ht : '\n' ∉ t := fun hh => h (List.mem_cons_of_mem a hh)
    refine noPair_cons ?_ (ih ht)
    intro b hbmem
    cases hab : bad a b with
    | false => rfl
    | true =>
      rcases hb a b hab with h1 | h1
      · exact absurd h1 ha
      · subst h1
        exact absurd (List.mem_of_mem_head? hbmem) ht

theorem noPair_append {bad : Char → Char → Bool} {l t : List Char}
    (h1 : noPair bad l = true) (h2 : noPair bad t = true)
    (h3 : ∀ a ∈ l.getLast?, ∀ b ∈ t.head?, bad a b = false) :
    noPair bad (l ++ t) = true := by
  induction l with
  | nil => exact h2
  | cons c l' ih =>
    cases l' with
    | nil =>
      refine noPair_cons ?_ h2
      intro b hb
      exact h3 c (by simp) b hb
    | cons d l'' =>
      have hcd : bad c d = false := by
        have := (Bool.and_eq_true _ _).mp h1
        simpa using this.1
      refine noPair_cons ?_ (ih (noPair_tail h1) ?_)
      · intro b hb
        simp at hb
        subst hb
        exact hcd
      · intro a ha b hb
        refine h3 a ?_ b hb
        rw [List.getLast?_cons_cons]
        exact ha

theorem noPair_joinNL {bad : Char → Char → Bool} :
    ∀ (out : List (List Char)), (∀ p ∈ out, noPair bad p = true) →
    (∀ p ∈ out, p ≠ []) →
    (∀ p ∈ out, ∀ b ∈ p.head?, bad '\n' b = false) →
    (∀ p ∈ out, ∀ a ∈ p.getLast?, bad a '\n' = false) →
    noPair bad (joinNL out) = true := by
  intro out
  induction out with
  | nil => intro _ _ _ _; rfl
  | cons l rest ih =>
    intro hE hne hR hL
    cases rest with
    | nil => exact hE l (by simp)
    | cons m rest' =>
      show noPair bad (l ++ '\n' :: joinNL (m :: rest')) = true
      have hm : m ≠ [] := hne m (by simp)
      have hJ : noPair bad (joinNL (m :: rest')) = true :=
        ih (fun p hp => hE p (List.mem_cons_of_mem l hp))
           (fun p hp => hne p (List.mem_cons_of_mem l hp))
           (fun p hp => hR p (List.mem_cons_of_mem l hp))
           (fun p hp => hL p (List.mem_cons_of_mem l hp))
      refine noPair_append (hE l (by simp)) ?_ ?_
      · refine noPair_cons ?_ hJ
        intro b hb
        rw [joinNL_head? hm] at hb
        exact hR m (by simp) b hb
      · intro a ha b hb
        simp at hb
        subst hb
        exact hL l (by simp) a ha

/-- The replacement of `[ \t]+\n` is the identity on a string without a
space or tab directly before a newline. -/
theorem removeSpacesBeforeNL_eq_self {l : List Char}
    (h : noPair badPair1 l = true) : removeSpacesBeforeNL l = l := by
  induction l with
  | nil => rfl
  | cons c rest ih =>
    have hr : removeSpacesBeforeNL rest = rest := ih (noPair_tail h)
    simp only [removeSpacesBeforeNL, hr]
    by_cases hc : isSpaceTab c = true
    · rw [if_pos hc]
      cases rest with
      | nil => rfl
      | cons d t =>
        by_cases hd : d = '\n'
        · exfalso
          have htop := (Bool.and_eq_true _ _).mp h
          have hbad : badPair1 c d = false := by simpa using htop.1
          rw [badPair1, hc, hd] at hbad
          simp at hbad
        · split
          · rename_i heq
            injection heq with h1 h2
            exact absurd h1 hd
          · rfl
    · rw [if_neg hc]

/-- The collapse of `\n{3,}` is the identity on a string without even two
adjacent newlines. -/
theorem collapseNewlines_eq_self {l : List Char}
    (h : noDoubleNL l = true) : collapseNewlines l = l := by
  induction l with
  | nil => rfl
  | cons a t ih =>
    have ht : collapseNewlines t = t := ih (noPair_tail h)
    simp only [collapseNewlines, ht]
    by_cases hcond : a = '\n' ∧ t.take 2 = ['\n', '\n']
    · exfalso
      obtain ⟨ha, htake⟩ := hcond
      cases t with
      | nil => simp at htake
      | cons b t' =>
        have hb : b = '\n' := by
          cases t' with
          | nil => simp at htake
          | cons bb tt => simp [List.take] at htake; exact htake.1
        have := (Bool.and_eq_true _ _).mp h
        have hbad : badPair2 a b = false := by simpa using this.1
        rw [badPair2, ha, hb] at hbad
        simp at hbad
    · simp [hcond]

theorem noTripleNL_of_noDoubleNL :
    ∀ {l : List Char}, noDoubleNL l = true → noTripleNL l = true := by
  intro l
  induction l with
  | nil => intro _; rfl
  | cons a t ih =>
    intro h
    cases t with
    | nil => rfl
    | cons b t' =>
      cases t' with
      | nil => rfl
      | cons c t'' =>
        have hab : badPair2 a b = false := by
          have := (Bool.and_eq_true _ _).mp h
          simpa using this.1
        have htail : noTripleNL (b :: c :: t'') = true := ih (noPair_tail h)
        simp only [noTripleNL, htail, Bool.and_true]
        rw [badPair2] at hab
        rcases Bool.and_eq_false_iff.mp hab with hh | hh
        · simp [decide_eq_false_iff_not.mp hh]
        · simp [decide_eq_false_iff_not.mp hh]

/-! Invariants of the loop output. -/

/-- Shape invariant of every line pushed to `out` by the loop: non-empty,
no whitespace at either edge, and free of newline and carriage-return
characters. -/
def GoodLine (l : List Char) : Prop :=
  l ≠ [] ∧ (∀ c ∈ l.head?, isJsSpace c = false) ∧
  (∀ c ∈ l.getLast?, isJsSpace c = false) ∧ '\n' ∉ l ∧ '\r' ∉ l

theorem isJsSpace_of_isSpaceTab {c : Char} (h : isSpaceTab c = true) :
    isJsSpace c = true := by
  rw [isSpaceTab] at h
  rcases of_decide_eq_true h with h | h <;> subst h <;> decide

theorem bulletsTest_ne_nil {l : List Char} (h : bulletsTest l = true) : l ≠ [] := by
  intro hl
  subst hl
  rw [show bulletsTest [] = false from rfl] at h
  exact Bool.false_ne_true h

theorem goodLine_jsTrim {l : List Char} (h1 : jsTrim l ≠ [])
    (h2 : '\n' ∉ l) (h3 : '\r' ∉ l) : GoodLine (jsTrim l) :=
  ⟨h1, jsTrim_head? l, jsTrim_getLast? l,
   fun hm => h2 (mem_of_mem_jsTrim hm), fun hm => h3 (mem_of_mem_jsTrim hm)⟩

theorem flushBuf_good {buf : List Char} (h2 : '\n' ∉ buf) (h3 : '\r' ∉ buf) :
    ∀ x ∈ flushBuf buf, GoodLine x := by
  intro x hx
  simp only [flushBuf] at hx
  by_cases hemp : (jsTrim buf).isEmpty = true
  · rw [if_pos hemp] at hx
    simp at hx
  · rw [if_neg hemp] at hx
    simp at hx
    subst hx
    refine goodLine_jsTrim ?_ h2 h3
    intro hnil
    rw [hnil] at hemp
    exact hemp rfl

theorem processLines_good :
    ∀ (ls : List (List Char)) (buf : List Char),
    (∀ l ∈ ls, '\n' ∉ l ∧ '\r' ∉ l) → ('\n' ∉ buf ∧ '\r' ∉ buf) →
    ∀ x ∈ processLines ls buf, GoodLine x := by
  intro ls
  induction ls with
  | nil =>
    intro buf _ hbuf x hx
    exact flushBuf_good hbuf.1 hbuf.2 x hx
  | cons l rest ih =>
    intro buf hls hbuf x hx
    have hl : '\n' ∉ l ∧ '\r' ∉ l := hls l (by simp)
    have hrest : ∀ p ∈ rest, '\n' ∉ p ∧ '\r' ∉ p :=
      fun p hp => hls p (List.mem_cons_of_mem l hp)
    have hcur : '\n' ∉ jsTrim l ∧ '\r' ∉ jsTrim l :=
      ⟨fun hm => hl.1 (mem_of_mem_jsTrim hm), fun hm => hl.2 (mem_of_mem_jsTrim hm)⟩
    simp only [processLines] at hx
    by_cases hemp : (jsTrim l).isEmpty = true
    · rw [if_pos hemp] at hx
      rcases List.mem_append.mp hx with hx | hx
      · exact flushBuf_good hbuf.1 hbuf.2 x hx
      · exact ih [] hrest (by simp) x hx
    · rw [if_neg hemp] at hx
      by_cases hbul : bulletsTest (jsTrim l) = true
      · rw [if_pos hbul] at hx
        rcases List.mem_append.mp hx with hx | hx
        · rcases List.mem_append.mp hx with hx | hx
          · exact flushBuf_good hbuf.1 hbuf.2 x hx
          · simp at hx
            subst hx
            refine goodLine_jsTrim ?_ hl.1 hl.2
            intro hnil
            rw [hnil] at hemp
            exact hemp rfl
        · exact ih [] hrest (by simp) x hx
      · rw [if_neg hbul] at hx
        have hnewmem : ∀ c, c ∈ (if buf.isEmpty then jsTrim l else buf ++ ' ' :: jsTrim l) →
            c ∈ buf ∨ c = ' ' ∨ c ∈ jsTrim l := by
          intro c hm
          by_cases hbe : buf.isEmpty = true
          · rw [if_pos hbe] at hm
            exact Or.inr (Or.inr hm)
          · rw [if_neg hbe] at hm
            rcases List.mem_append.mp hm with hm | hm
            · exact Or.inl hm
            · rcases List.mem_cons.mp hm with hm | hm
              · exact Or.inr (Or.inl hm)
              · exact Or.inr (Or.inr hm)
        have hnew : '\n' ∉ (if buf.isEmpty then jsTrim l else buf ++ ' ' :: jsTrim l) ∧
            '\r' ∉ (if buf.isEmpty then jsTrim l else buf ++ ' ' :: jsTrim l) := by
          constructor
          · intro hm
            rcases hnewmem _ hm with h | h | h
            · exact hbuf.1 h
            · exact absurd h (by decide)
            · exact hcur.1 h
          · intro hm
            rcases hnewmem _ hm with h | h | h
            · exact hbuf.2 h
            · exact absurd h (by decide)
            · exact hcur.2 h
        by_cases hjoin : joinSoftly (jsTrim l) (jsTrim (rest.headD [])) = true
        · rw [if_pos hjoin] at hx
          exact ih _ hrest hnew x hx
        · rw [if_neg hjoin] at hx
          rcases List.mem_append.mp hx with hx | hx
          · exact flushBuf_good hnew.1 hnew.2 x hx
          · exact ih [] hrest (by simp) x hx

theorem mem_of_mem_splitNL :
    ∀ (l : List Char), ∀ p ∈ splitNL l, ∀ c ∈ p, c ∈ l := by
  intro l
  induction l with
  | nil =>
    intro p hp c hc
    simp [splitNL] at hp
    subst hp
    simp at hc
  | cons a rest ih =>
    intro p hp c hc
    simp only [splitNL] at hp
    by_cases ha : a = '\n'
    · simp [ha] at hp
      rcases hp with hp | hp
      · subst hp; simp at hc
      · exact List.mem_cons_of_mem a (ih p hp c hc)
    · simp [ha] at hp
      rcases hp with hp | hp
      · subst hp
        rcases List.mem_cons.mp hc with hc | hc
        · exact hc ▸ List.mem_cons_self a rest
        · cases hsp : splitNL rest with
          | nil => exact absurd hsp (splitNL_ne_nil rest)
          | cons q qs =>
            rw [hsp] at hc
            simp at hc
            exact List.mem_cons_of_mem a (ih q (by rw [hsp]; simp) c hc)
      · exact List.mem_cons_of_mem a (ih p (List.mem_of_mem_tail hp) c hc)

theorem not_mem_removeCR (l : List Char) : '\r' ∉ removeCR l := by
  intro hm
  rw [removeCR, List.mem_filter] at hm
  simp at hm

theorem linesOf_no_nl_cr (s : List Char) : ∀ l ∈ linesOf s, '\n' ∉ l ∧ '\r' ∉ l := by
  intro l hl
  rw [linesOf, List.mem_map] at hl
  obtain ⟨p, hp, hrl⟩ := hl
  subst hrl
  constructor
  · intro hm
    exact not_mem_of_mem_splitNL _ p hp (mem_of_mem_rstrip hm)
  · intro hm
    exact not_mem_removeCR _
      (mem_of_mem_splitNL _ p hp '\r' (mem_of_mem_rstrip hm))

theorem outOf_good (s : List Char) : ∀ x ∈ outOf s, GoodLine x := by
  intro x hx
  exact processLines_good (linesOf s) [] (linesOf_no_nl_cr s) (by simp) x hx

/-- The join of good lines never puts a space or tab before a newline. -/
theorem joinNL_good_noPair1 {out : List (List Char)}
    (hgood : ∀ p ∈ out, GoodLine p) : noPair badPair1 (joinNL out) = true := by
  cases out with
  | nil => rfl
  | cons m rest =>
    have hne : ∀ p ∈ m :: rest, p ≠ [] := fun p hp => (hgood p hp).1
    have hnl : ∀ p ∈ m :: rest, '\n' ∉ p := fun p hp => (hgood p hp).2.2.2.1
    have hlast : ∀ p ∈ m :: rest, ∀ c ∈ p.getLast?, isJsSpace c = false :=
      fun p hp => (hgood p hp).2.2.1
    refine noPair_joinNL _ ?_ hne ?_ ?_
    · intro p hp
      refine noPair_of_nl ?_ (hnl p hp)
      intro a b hab
      rw [badPair1] at hab
      exact Or.inr (by simpa using ((Bool.and_eq_true _ _).mp hab).2)
    · intro p hp b hb
      rw [badPair1, show isSpaceTab '\n' = false from by decide]
      rfl
    · intro p hp a ha
      have hst : isSpaceTab a = false := by
        cases hst : isSpaceTab a
        · rfl
        · have := isJsSpace_of_isSpaceTab hst
          rw [hlast p hp a ha] at this
          exact absurd this (by simp)
      rw [badPair1, hst]
      rfl

/-- The join of good lines never contains two adjacent newlines. -/
theorem joinNL_good_noDoubleNL {out : List (List Char)}
    (hgood : ∀ p ∈ out, GoodLine p) : noDoubleNL (joinNL out) = true := by
  cases out with
  | nil => rfl
  | cons m rest =>
    have hne : ∀ p ∈ m :: rest, p ≠ [] := fun p hp => (hgood p hp).1
    have hnl : ∀ p ∈ m :: rest, '\n' ∉ p := fun p hp => (hgood p hp).2.2.2.1
    refine noPair_joinNL _ ?_ hne ?_ ?_
    · intro p hp
      refine noPair_of_nl ?_ (hnl p hp)
      intro a b hab
      rw [badPair2] at hab
      exact Or.inl (by simpa using ((Bool.and_eq_true _ _).mp hab).1)
    · intro p hp b hb
      have : b ≠ '\n' := fun hh => hnl p hp (hh ▸ List.mem_of_mem_head? hb)
      simp [badPair2, this]
    · intro p hp a ha
      have : a ≠ '\n' := fun hh => hnl p hp (hh ▸ List.mem_of_mem_getLast? ha)
      simp [badPair2, this]

/-- Main structural lemma: the final tidy / collapse / trim stage of
`reconstructResumeText` is the identity on the newline-join of the loop
output, because every emitted line is non-empty, trimmed and newline-free. -/
theorem reconstruct_eq_joinNL (s : List Char) :
    reconstructResumeText s = joinNL (outOf s) := by
  have hgood : ∀ x ∈ outOf s, GoodLine x := outOf_good s
  rw [reconstructResumeText]
  cases hout : outOf s with
  | nil => rfl
  | cons m rest =>
    rw [hout] at hgood
    have hne : ∀ p ∈ m :: rest, p ≠ [] := fun p hp => (hgood p hp).1
    have hhead : ∀ p ∈ m :: rest, ∀ c ∈ p.head?, isJsSpace c = false :=
      fun p hp => (hgood p hp).2.1
    have hlast : ∀ p ∈ m :: rest, ∀ c ∈ p.getLast?, isJsSpace c = false :=
      fun p hp => (hgood p hp).2.2.1
    rw [removeSpacesBeforeNL_eq_self (joinNL_good_noPair1 hgood),
      collapseNewlines_eq_self (joinNL_good_noDoubleNL hgood)]
    refine jsTrim_eq_self ?_ ?_
    · intro c hc
      rw [joinNL_head? (hne m (by simp))] at hc
      exact hhead m (by simp) c hc
    · intro c hc
      obtain ⟨p, hp, hpc⟩ := joinNL_getLast? (m :: rest) hne c hc
      refine hlast p hp c ?_
      rw [hpc]
      simp

/-- The output of `reconstructResumeText` never has two adjacent newlines. -/
theorem reconstruct_noDoubleNL (s : List Char) :
    noDoubleNL (reconstructResumeText s) = true := by
  rw [reconstruct_eq_joinNL s]
  exact joinNL_good_noDoubleNL (outOf_good s)

/-! Support for the per-claim theorems. -/

/-- Occurrence of the soft-hyphen pattern of the dehyphenation regex: an
ASCII letter, a hyphen, a newline and another ASCII letter, somewhere in
the string. -/
def hasSoftHyphenBreak : List Char → Bool
  | a :: '-' :: '\n' :: b :: rest =>
    (a.isAlpha && b.isAlpha) || hasSoftHyphenBreak ('-' :: '\n' :: b :: rest)
  | _ :: rest => hasSoftHyphenBreak rest
  | [] => false

theorem dehyphenate_eq_self :
    ∀ (l : List Char), hasSoftHyphenBreak l = false → dehyphenate l = l := by
  intro l
  induction l using dehyphenate.induct with
  | case1 a b rest halpha ih =>
    intro h
    rw [hasSoftHyphenBreak] at h
    rw [halpha] at h
    simp at h
  | case2 a b rest halpha ih =>
    intro h
    rw [hasSoftHyphenBreak] at h
    have h2 : hasSoftHyphenBreak ('-' :: '\n' :: b :: rest) = false :=
      (Bool.or_eq_false_iff.mp h).2
    rw [dehyphenate, if_neg halpha, ih h2]
  | case3 c rest hshape ih =>
    intro h
    have hrw : dehyphenate (c :: rest) = c :: dehyphenate rest := by
      rw [dehyphenate.eq_def]
      cases rest with
      | nil => rfl
      | cons d t =>
        by_cases hd : d = '-'
        · subst hd
          cases t with
          | nil => rfl
          | cons e t' =>
            by_cases he : e = '\n'
            · subst he
              cases t' with
              | nil => rfl
              | cons b' t'' => exact absurd rfl (hshape b' t'')
            · simp [he]
        · simp [hd]
    have hrw2 : hasSoftHyphenBreak (c :: rest) = hasSoftHyphenBreak rest := by
      rw [hasSoftHyphenBreak.eq_def]
      cases rest with
      | nil => rfl
      | cons d t =>
        by_cases hd : d = '-'
        · subst hd
          cases t with
          | nil => rfl
          | cons e t' =>
            by_cases he : e = '\n'
            · subst he
              cases t' with
              | nil => rfl
              | cons b' t'' => exact absurd rfl (hshape b' t'')
            · simp [he]
        · simp [hd]
    rw [hrw2] at h
    rw [hrw, ih h]
  | case4 => intro h; rfl

theorem removeCR_eq_self {l : List Char} (h : '\r' ∉ l) : removeCR l = l := by
  refine List.filter_eq_self.mpr ?_
  intro a ha
  simp only [decide_eq_true_eq]
  intro hh
  subst hh
  exact h ha

theorem map_rstrip_eq_self {ls : List (List Char)}
    (h : ∀ l ∈ ls, ∀ c ∈ l.getLast?, isJsSpace c = false) :
    ls.map rstrip = ls := by
  induction ls with
  | nil => rfl
  | cons l rest ih =>
    rw [List.map_cons, rstrip_eq_self (h l (by simp)),
      ih (fun p hp => h p (List.mem_cons_of_mem l hp))]

/-- A list of lines that are already trimmed, non-empty and classified as
bullet, sentence-ended or hard-break passes through the loop unchanged:
each line is flushed or pushed as its own output line. -/
theorem processLines_fixed :
    ∀ (ls : List (List Char)),
    (∀ l ∈ ls, jsTrim l = l ∧ l ≠ [] ∧
      (bulletsTest l || sentenceEndTest l || hardBreakAfterTest l) = true) →
    processLines ls [] = ls := by
  intro ls
  induction ls with
  | nil => intro _; rfl
  | cons l rest ih =>
    intro h
    obtain ⟨htr, hne, hcls⟩ := h l (by simp)
    have hrest := fun p hp => h p (List.mem_cons_of_mem l hp)
    have hemp : l.isEmpty = false := by
      cases l with
      | nil => exact absurd rfl hne
      | cons a t => rfl
    simp only [processLines, htr]
    rw [if_neg (by rw [hemp]; exact Bool.false_ne_true)]
    by_cases hbul : bulletsTest l = true
    · rw [if_pos hbul]
      rw [show flushBuf [] = [] from rfl, ih hrest]
      simp
    · rw [if_neg hbul]
      have hjs : joinSoftly l (jsTrim (rest.headD [])) = false := by
        rcases (by simpa using hcls :
            (bulletsTest l = true ∨ sentenceEndTest l = true) ∨
            hardBreakAfterTest l = true) with (hh | hh) | hh
        · exact absurd hh hbul
        · rw [joinSoftly, hh]; simp
        · rw [joinSoftly, hh]; simp
      rw [if_neg (by rw [hjs]; exact Bool.false_ne_true)]
      have hfl : flushBuf
          (if List.isEmpty ([] : List Char) = true then l else ([] : List Char) ++ ' ' :: l) = [l] := by
        rw [show (if List.isEmpty ([] : List Char) = true then l
          else ([] : List Char) ++ ' ' :: l) = l from rfl]
        rw [flushBuf]
        simp only [htr]
        rw [if_neg (by rw [hemp]; exact Bool.false_ne_true)]
      rw [hfl, ih hrest]
      rfl

/-- Every line recognized as a bullet by the loop is pushed verbatim to the
output list, whatever the buffer holds. -/
theorem processLines_bullet_mem :
    ∀ (ls : List (List Char)) (buf : List Char) (l : List Char),
    l ∈ ls → bulletsTest (jsTrim l) = true → jsTrim l ∈ processLines ls buf := by
  intro ls
  induction ls with
  | nil => intro buf l hl _; simp at hl
  | cons p rest ih =>
    intro buf l hl hb
    rcases List.mem_cons.mp hl with hl | hl
    · subst hl
      have hemp : (jsTrim l).isEmpty = false := by
        cases hc : jsTrim l with
        | nil =>
          rw [hc] at hb
          rw [show bulletsTest [] = false from rfl] at hb
          exact absurd hb Bool.false_ne_true
        | cons a t => rfl
      simp only [processLines]
      rw [if_neg (by rw [hemp]; exact Bool.false_ne_true), if_pos hb]
      simp
    · simp only [processLines]
      by_cases hemp : (jsTrim p).isEmpty = true
      · rw [if_pos hemp]
        exact List.mem_append_right _ (ih [] l hl hb)
      · rw [if_neg hemp]
        by_cases hbul : bulletsTest (jsTrim p) = true
        · rw [if_pos hbul]
          exact List.mem_append_right _ (ih [] l hl hb)
        · rw [if_neg hbul]
          by_cases hjoin : joinSoftly (jsTrim p) (jsTrim (rest.headD [])) = true
          · rw [if_pos hjoin]
            exact ih _ l hl hb
          · rw [if_neg hjoin]
            exact List.mem_append_right _ (ih [] l hl hb)

/-- Fixpoint property: when the output of `reconstructResumeText` contains
no soft-hyphen pattern and each of its lines is a bullet line, ends a
sentence or ends in a hard-break marker, a second application leaves it
unchanged. -/
theorem reconstruct_fixpoint (s : List Char)
    (h1 : hasSoftHyphenBreak (reconstructResumeText s) = false)
    (h2 : ∀ l ∈ splitNL (reconstructResumeText s),
      (bulletsTest l || sentenceEndTest l || hardBreakAfterTest l) = true) :
    reconstructResumeText (reconstructResumeText s) = reconstructResumeText s := by
  have hmain := reconstruct_eq_joinNL s
  have hgood := outOf_good s
  cases hout : outOf s with
  | nil =>
    rw [hout] at hmain
    rw [hmain]
    rfl
  | cons m rest =>
    rw [hout] at hmain hgood
    have hne : ∀ p ∈ m :: rest, p ≠ [] := fun p hp => (hgood p hp).1
    have hnl : ∀ p ∈ m :: rest, '\n' ∉ p := fun p hp => (hgood p hp).2.2.2.1
    have hcrm : ∀ p ∈ m :: rest, '\r' ∉ p := fun p hp => (hgood p hp).2.2.2.2
    have hhead : ∀ p ∈ m :: rest, ∀ c ∈ p.head?, isJsSpace c = false :=
      fun p hp => (hgood p hp).2.1
    have hlast : ∀ p ∈ m :: rest, ∀ c ∈ p.getLast?, isJsSpace c = false :=
      fun p hp => (hgood p hp).2.2.1
    have hsplit : splitNL (reconstructResumeText s) = m :: rest := by
      rw [hmain]
      exact splitNL_joinNL _ hnl (by simp)
    have h2' : ∀ l ∈ m :: rest,
        (bulletsTest l || sentenceEndTest l || hardBreakAfterTest l) = true := by
      intro l hl
      refine h2 l ?_
      rw [hsplit]
      exact hl
    have hcr : '\r' ∉ reconstructResumeText s := by
      rw [hmain]
      intro hm
      rcases mem_joinNL hm with hm | ⟨p, hp, hm⟩
      · exact absurd hm (by decide)
      · exact hcrm p hp hm
    have hlines : linesOf (reconstructResumeText s) = m :: rest := by
      rw [linesOf, show normalizeNFKC (reconstructResumeText s) =
        reconstructResumeText s from rfl, dehyphenate_eq_self _ h1,
        removeCR_eq_self hcr, hsplit]
      exact map_rstrip_eq_self hlast
    have hout2 : outOf (reconstructResumeText s) = m :: rest := by
      rw [outOf, hlines]
      exact processLines_fixed _
        (fun l hl => ⟨jsTrim_eq_self (hhead l hl) (hlast l hl), hne l hl, h2' l hl⟩)
    rw [reconstruct_eq_joinNL (reconstructResumeText s), hout2, hmain]

/-- Formalization of the claim wording "does not end in `:`, `;` or a
closing parenthesis" of the join rule, ignoring trailing whitespace (this
is the `[:;]\s*$|\)\s*$` part of the `hardBreakAfter` regex). -/
def endsInHardMark (l : List Char) : Bool :=
  match l.reverse.dropWhile isJsSpace with
  | c :: _ => decide (c = ':') || decide (c = ';') || decide (c = ')')
  | [] => false

/-- The alternative `^\s*[-*•‣▪◦]` of the `hardBreakAfter` regex: the first
character after leading whitespace is a bullet marker, with no following
whitespace required (unlike the `bullets` regex). -/
def beginsWithBulletMark (l : List Char) : Bool :=
  match l.dropWhile isJsSpace with
  | c :: _ => isBulletMark c
  | [] => false

theorem hardBreakAfterTest_eq (l : List Char) :
    hardBreakAfterTest l = (endsInHardMark l || beginsWithBulletMark l) := rfl

/-- Formalization of the claim side condition "no stray mid-paragraph line
wraps" used for the clean-form counterexample: every newline of the string
is part of a blank-line paragraph separator, i.e. directly preceded or
followed by another newline; `prev` carries the previous character. -/
def allBreaksDoubled : Option Char → List Char → Bool
  | _, [] => true
  | prev, c :: rest =>
    (if c = '\n' then
      decide (prev = some '\n') ||
      (match rest with
       | d :: _ => decide (d = '\n')
       | [] => false)
     else true) && allBreaksDoubled (some c) rest

/-- A string whose every line break belongs to a blank-line paragraph
separator (no mid-paragraph wrap). -/
def allBreaksAreParagraphBreaks (l : List Char) : Bool := allBreaksDoubled none l

/-! Concrete inputs used by the claims. -/

/-- The documented paragraph/bullet example input. -/
def exampleInput1 : List Char :=
  ("Built scalable\nsystems for\nmillions of users.\n\n- Led team of 5\n- Shipped on time").data

/-- The output the claim expects for `exampleInput1`, with the blank
separator line preserved between the paragraph and the bullets. -/
def exampleSpecOutput1 : List Char :=
  ("Built scalable systems for millions of users.\n\n- Led team of 5\n- Shipped on time").data

/-- The output the code produces for `exampleInput1`, with a single newline
between the paragraph and the first bullet. -/
def exampleCodeOutput1 : List Char :=
  ("Built scalable systems for millions of users.\n- Led team of 5\n- Shipped on time").data

/-- A clean two-paragraph input: no soft-hyphen break, and every newline is
part of a blank-line paragraph separator. -/
def cleanTwoParagraphs : List Char := ("Hello world\n\nGoodbye now").data

/-- An input whose reconstruction output is a fixed point of the cleanup. -/
def stableResume : List Char := ("Sentence one.\nSkills:\n- Python").data

/-- An input with a numbered item after a line without terminal punctuation. -/
def numberedInput : List Char := ("No period here\n1) Managed budget").data

/-- The numbered-item line of `numberedInput`. -/
def numberedLine : List Char := ("1) Managed budget").data

/-- A line that begins with a bullet marker but is not recognized as a
bullet line, because no whitespace follows the marker. -/
def dashWordLine : List Char := ("-Led").data

/-- The follower line of the join counterexample. -/
def plainNextLine : List Char := ("more").data

/-- The two-line join counterexample input. -/
def dashWordInput : List Char := ("-Led\nmore").data

/-- The output the claim's join rule predicts for `dashWordInput`. -/
def dashWordJoined : List Char := ("-Led more").data

/-- The soft-hyphen example input. -/
def hyphenInput : List Char := ("infrastructur-\ne team").data

/-- The expected unwrapped output of `hyphenInput`. -/
def hyphenOutput : List Char := ("infrastructure team").data

/-- A padded one-word input for the trimming witness. -/
def paddedInput : List Char := ("  hi  ").data

/-- The single output line of `paddedInput`. -/
def paddedLine : List Char := ("hi").data

/-! Claim theorems. -/

/-- Claim C1 (counterexample): on the documented input the result of
`reconstructResumeText` is not the claimed string: the blank line between
the joined paragraph and the bullets is not preserved in the output. -/
theorem c1_blank_line_not_preserved :
    reconstructResumeText exampleInput1 ≠ exampleSpecOutput1 := by decide

/-- Claim C1 (amended): the first three lines are joined into one
sentence-terminated paragraph and each bullet line keeps its own line, but
the blank input line is dropped, so the paragraph and the bullets end up
separated by a single newline. -/
theorem c1_paragraph_and_bullets :
    reconstructResumeText exampleInput1 = exampleCodeOutput1 := by decide

/-- Claim C2 (counterexample): idempotence fails on the clean input
"Hello world\n\nGoodbye now", which has no soft-hyphen break and whose only
line breaks form a blank-line paragraph separator: the first pass drops the
blank line, and the second pass joins the two paragraphs. -/
theorem c2_not_idempotent :
    hasSoftHyphenBreak cleanTwoParagraphs = false ∧
    allBreaksAreParagraphBreaks cleanTwoParagraphs = true ∧
    reconstructResumeText (reconstructResumeText cleanTwoParagraphs) ≠
      reconstructResumeText cleanTwoParagraphs :=
  ⟨by decide, by decide, by decide⟩

/-- Claim C2 (amended): rerunning the cleanup can alter clean text whose
paragraphs were separated by blank lines; idempotence does hold whenever
the first output has no soft-hyphen pattern and each of its lines is a
bullet line, ends a sentence or ends in a hard-break marker. -/
theorem c2_idempotent_on_classified_output (s : List Char)
    (h1 : hasSoftHyphenBreak (reconstructResumeText s) = false)
    (h2 : ∀ l ∈ splitNL (reconstructResumeText s),
      (bulletsTest l || sentenceEndTest l || hardBreakAfterTest l) = true) :
    reconstructResumeText (reconstructResumeText s) = reconstructResumeText s :=
  reconstruct_fixpoint s h1 h2

/-- Claim C2 (witness): the hypotheses of the amended idempotence theorem
hold for the concrete input "Sentence one.\nSkills:\n- Python". -/
theorem c2_idempotent_witness :
    hasSoftHyphenBreak (reconstructResumeText stableResume) = false ∧
    (∀ l ∈ splitNL (reconstructResumeText stableResume),
      (bulletsTest l || sentenceEndTest l || hardBreakAfterTest l) = true) ∧
    reconstructResumeText (reconstructResumeText stableResume) =
      reconstructResumeText stableResume :=
  ⟨by decide, by decide,
    c2_idempotent_on_classified_output stableResume (by decide) (by decide)⟩

/-- Claim C3: any line recognized by the `bullets` regex is never merged
into a paragraph: whatever the surrounding lines, its trimmed form always
appears as its own line of the output. -/
theorem c3_bullet_own_line (s l : List Char)
    (hl : l ∈ linesOf s) (hb : bulletsTest (jsTrim l) = true) :
    jsTrim l ∈ splitNL (reconstructResumeText s) := by
  have hmem : jsTrim l ∈ outOf s := processLines_bullet_mem (linesOf s) [] l hl hb
  have hgood := outOf_good s
  cases hout : outOf s with
  | nil =>
    rw [hout] at hmem
    simp at hmem
  | cons m rest =>
    rw [hout] at hmem hgood
    rw [reconstruct_eq_joinNL s, hout,
      splitNL_joinNL _ (fun p hp => (hgood p hp).2.2.2.1) (by simp)]
    exact hmem

/-- Claim C3 (witness): "1) Managed budget" is emitted on its own line even
though the previous line "No period here" lacks terminal punctuation. -/
theorem c3_numbered_witness :
    numberedLine ∈ linesOf numberedInput ∧
    bulletsTest (jsTrim numberedLine) = true ∧
    jsTrim numberedLine ∈ splitNL (reconstructResumeText numberedInput) :=
  ⟨by decide, by decide,
    c3_bullet_own_line numberedInput numberedLine (by decide) (by decide)⟩

/-- Claim C4 (counterexample): the line "-Led" followed by "more" meets
every join condition the claim lists (not a bullet line, no
sentence-terminal ending, not ending in a colon, semicolon or closing
parenthesis, non-empty non-bullet next line), yet the two lines are not
space-concatenated: the output keeps them on separate lines. -/
theorem c4_join_rule_incomplete :
    bulletsTest dashWordLine = false ∧
    sentenceEndTest dashWordLine = false ∧
    endsInHardMark dashWordLine = false ∧
    plainNextLine ≠ [] ∧
    bulletsTest plainNextLine = false ∧
    reconstructResumeText dashWordInput = dashWordInput ∧
    dashWordInput ≠ dashWordJoined :=
  ⟨by decide, by decide, by decide, by decide, by decide, by decide, by decide⟩

/-- Claim C4 (amended): the join decision of the loop equals the claim's
conjunction extended with one further condition: the current line must also
not begin with a bullet marker character, the second alternative of the
`hardBreakAfter` regex. -/
theorem c4_join_condition (cur next : List Char) :
    joinSoftly cur next =
      (!cur.isEmpty && !sentenceEndTest cur && !endsInHardMark cur &&
       !beginsWithBulletMark cur && !next.isEmpty && !bulletsTest next) := by
  simp only [joinSoftly, hardBreakAfterTest_eq, Bool.not_or, Bool.and_assoc]

/-- Claim C5: soft-hyphenated line breaks are unwrapped: the documented
example rejoins to "infrastructure team", and within `dehyphenate` the
hyphen-newline pair is removed exactly when both the character before the
hyphen and the character after the break are ASCII letters, and is kept
otherwise. -/
theorem c5_soft_hyphen_unwrap :
    reconstructResumeText hyphenInput = hyphenOutput ∧
    (∀ (a b : Char) (rest : List Char), (a.isAlpha && b.isAlpha) = true →
      dehyphenate (a :: '-' :: '\n' :: b :: rest) = a :: dehyphenate (b :: rest)) ∧
    (∀ (a b : Char) (rest : List Char), (a.isAlpha && b.isAlpha) = false →
      dehyphenate (a :: '-' :: '\n' :: b :: rest) =
        a :: dehyphenate ('-' :: '\n' :: b :: rest)) := by
  refine ⟨by decide, ?_, ?_⟩
  · intro a b rest h
    rw [dehyphenate, if_pos h]
  · intro a b rest h
    rw [dehyphenate, if_neg (by simp [h])]

/-- Claim C5 (witness): the unwrap fires between the letters `r` and `e`,
and does not fire when a digit precedes the hyphen. -/
theorem c5_soft_hyphen_witness :
    (('r'.isAlpha && 'e'.isAlpha) = true ∧
      dehyphenate ('r' :: '-' :: '\n' :: 'e' :: []) = 'r' :: dehyphenate ('e' :: [])) ∧
    (('2'.isAlpha && 'e'.isAlpha) = false ∧
      dehyphenate ('2' :: '-' :: '\n' :: 'e' :: []) =
        '2' :: dehyphenate ('-' :: '\n' :: 'e' :: [])) :=
  ⟨⟨by decide, c5_soft_hyphen_unwrap.2.1 'r' 'e' [] (by decide)⟩,
   ⟨by decide, c5_soft_hyphen_unwrap.2.2 '2' 'e' [] (by decide)⟩⟩

/-- Claim C6: for every input the reconstruction (a total function of this
embedding) returns a string with no leading or trailing whitespace and no
run of three or more consecutive newlines; the collapse stage removes a
newline from any leading run of three, so longer runs shrink to exactly
two. -/
theorem c6_output_tidy (s : List Char) :
    jsTrim (reconstructResumeText s) = reconstructResumeText s ∧
    noTripleNL (reconstructResumeText s) = true ∧
    (∀ t : List Char, collapseNewlines ('\n' :: '\n' :: '\n' :: t) =
      collapseNewlines ('\n' :: '\n' :: t)) := by
  refine ⟨?_, ?_, ?_⟩
  · show jsTrim (jsTrim (collapseNewlines (removeSpacesBeforeNL (joinNL (outOf s))))) =
      jsTrim (collapseNewlines (removeSpacesBeforeNL (joinNL (outOf s))))
    exact jsTrim_idem _
  · exact noTripleNL_of_noDoubleNL (reconstruct_noDoubleNL s)
  · intro t
    rw [collapseNewlines, if_pos ⟨rfl, rfl⟩]

/-- Claim C7: the reconstructor is total over all string inputs of the
embedding, with no failure outcome, and the empty input yields the empty
output. -/
theorem c7_total_and_empty :
    (∀ s : List Char, ∃ t : List Char, reconstructResumeText s = t) ∧
    reconstructResumeText [] = [] :=
  ⟨fun s => ⟨reconstructResumeText s, rfl⟩, by decide⟩

/-- Claim C8: every 200 response of the resume-parse POST handler carries a
`chars` field equal to the length of its `text` field, and the `text` field
is the reconstruction of the extracted raw text. -/
theorem c8_chars_matches_text (raw : List Char) :
    (parseResumeOk raw).text = reconstructResumeText raw ∧
    (parseResumeOk raw).chars = (parseResumeOk raw).text.length :=
  ⟨rfl, rfl⟩

/-- Claim C9 (implicit): the output of `reconstructResumeText` contains no
blank line at all: no two consecutive newline characters occur in any
result, because only non-empty trimmed lines are pushed and they are joined
by single newlines. -/
theorem c9_no_blank_lines (s : List Char) :
    noDoubleNL (reconstructResumeText s) = true :=
  reconstruct_noDoubleNL s

/-- Claim C10 (implicit): every line of the output is trimmed on both
sides: leading indentation is stripped as well as trailing whitespace. -/
theorem c10_output_lines_trimmed (s l : List Char)
    (hl : l ∈ splitNL (reconstructResumeText s)) : jsTrim l = l := by
  have hgood := outOf_good s
  cases hout : outOf s with
  | nil =>
    rw [reconstruct_eq_joinNL s, hout] at hl
    simp [joinNL, splitNL] at hl
    subst hl
    rfl
  | cons m rest =>
    rw [hout] at hgood
    rw [reconstruct_eq_joinNL s, hout,
      splitNL_joinNL _ (fun p hp => (hgood p hp).2.2.2.1) (by simp)] at hl
    exact jsTrim_eq_self ((hgood l hl).2.1) ((hgood l hl).2.2.1)

/-- Claim C10 (witness): the padded input "  hi  " yields the single
trimmed line "hi". -/
theorem c10_trimmed_witness :
    paddedLine ∈ splitNL (reconstructResumeText paddedInput) ∧
    jsTrim paddedLine = paddedLine :=
  ⟨by decide, c10_output_lines_trimmed paddedInput paddedLine (by decide)⟩
